import Mathlib

/-!
Verification of the CLT latent-activation collector.

This file gives a shallow embedding of the latent-extraction pipeline of
activation_collector.py: batching variable-length protein sequences through a
pretrained encoder, re-deriving the transcoder's per-layer sparse activation
from encoder hidden states, re-aligning the marker-bracketed token positions
back to per-residue indices, and assembling the ragged per-sequence output
structure that is archived per (target family, group) pair.

Tensors are modelled as nested lists of integers, an exact ordered-ring
carrier standing in for the source's float values: every claim checked here
concerns shapes, counts, sparsity and control flow, none of which depend on
the scalar domain.  External collaborators (the ESM encoder layers,
the transcoder's normalisation and linear encoders, the seeded sampler) are
parameters of the embedding; operations whose source lives outside the
repository but whose behaviour the spec pins down (the tokenizer's
marker/padding layout, the top-k activation) are modelled from the spec and
say so in their doc comments.
-/

namespace ActivationCollector

/-- A 1-D tensor (one hidden vector) of scalar values. -/
abbrev Vec := List ℤ

/-- A 2-D tensor, outer axis first. -/
abbrev Mat := List Vec

/-- A 3-D tensor, outer axis first. -/
abbrev Tensor3 := List Mat

/-- A boolean mask over a 2-D index range, as computed from the token tensor. -/
abbrev AttnMask := List (List Bool)

/-- One encoder layer, as used by the source: it receives the running
time-major hidden tensor and an optional self-attention padding mask and
returns the next hidden tensor.  The source always passes the mask argument
as None. -/
abbrev EncLayer := Tensor3 → Option AttnMask → Tensor3

/-- The fields of the ESM encoder collaborator that the source reads:
the padding/cls/eos token indices of its alphabet, the embedding scale and
table, and the stack of transformer layers. -/
structure ESMModel where
  padding_idx : ℤ
  cls_idx : ℤ
  eos_idx : ℤ
  embed_scale : ℤ
  embed_tokens : ℤ → Vec
  layers : List EncLayer

/-- The fields of the cross-layer transcoder collaborator that the source
reads: the number of layers, the sparsity parameter, the normalisation, and
the per-layer biases and linear encoders. -/
structure CLT where
  num_layers : ℕ
  k : ℕ
  LN : Vec → Vec
  b_pre : ℕ → Vec
  encoders : ℕ → Vec → Vec
  b_enc : ℕ → Vec

/-- Pointwise subtraction of two vectors (torch broadcasting over the hidden
axis; operands in the source always have equal length). -/
def vsub (v w : Vec) : Vec := List.zipWith (· - ·) v w

/-- Pointwise addition of two vectors. -/
def vadd (v w : Vec) : Vec := List.zipWith (· + ·) v w

/-- Scalar multiplication of a vector. -/
def scaleVec (c : ℤ) (v : Vec) : Vec := v.map (fun q => c * q)

/-- Number of nonzero entries of a vector. -/
def numNonzero (v : Vec) : ℕ := v.countP (fun q => decide (q ≠ 0))

/-- Modelled from the spec: the transcoder's published top-k activation
(its source lives in the external clt_module, outside this repository).
For one token position's pre-activation vector, retain only the k highest
entries and set the remainder to zero; ties are broken by the selection's
natural (stable, index-first) order.  The kept positions are the first k
indices when indices are stably sorted by descending value. -/
def topK_activation (v : Vec) (k : ℕ) : Vec :=
  let kept :=
    (List.insertionSort (fun i j => v.getD j 0 ≤ v.getD i 0) (List.range v.length)).take k
  (List.range v.length).map (fun i => if i ∈ kept then v.getD i 0 else 0)

theorem length_topK_activation (v : Vec) (k : ℕ) :
    (topK_activation v k).length = v.length := by
  simp [topK_activation]

theorem numNonzero_topK_activation_le (v : Vec) (k : ℕ) :
    numNonzero (topK_activation v k) ≤ k := by
  unfold numNonzero topK_activation
  set kept :=
    (List.insertionSort (fun i j => v.getD j 0 ≤ v.getD i 0) (List.range v.length)).take k
    with hkept
  rw [List.countP_map]
  have hmono :
      List.countP
          ((fun q => decide (q ≠ 0)) ∘ fun i => if i ∈ kept then v.getD i 0 else 0)
          (List.range v.length) ≤
        List.countP (fun i => decide (i ∈ kept)) (List.range v.length) := by
    apply List.countP_mono_left
    intro i _ h
    by_contra hc
    simp only [Function.comp, decide_eq_true_eq] at h hc
    rw [if_neg (by simpa using hc)] at h
    exact h rfl
  refine le_trans hmono ?_
  rw [List.countP_eq_length_filter]
  have hsub : List.filter (fun i => decide (i ∈ kept)) (List.range v.length) ⊆ kept := by
    intro a ha
    have := List.of_mem_filter ha
    simpa using this
  have hnd : (List.filter (fun i => decide (i ∈ kept)) (List.range v.length)).Nodup :=
    (List.nodup_range v.length).filter _
  refine le_trans (List.Subperm.length_le (List.subperm_of_subset hnd hsub)) ?_
  rw [hkept]
  exact List.length_take_le _ _

/-- Transpose of the outer two axes of a tensor, as used for the source's
tensor.transpose(0, 1) calls; agrees with the torch transpose on the
rectangular tensors the source applies it to. -/
def transpose2 {α : Type} (x : List (List α)) : List (List α) :=
  (List.range (x.headD []).length).map (fun j => x.filterMap (fun row => row[j]?))

/-- Shape of the outer two axes of a nested list: the outer list has length a
and every row has length b. -/
def HasShape2 {α : Type} (x : List (List α)) (a b : ℕ) : Prop :=
  x.length = a ∧ ∀ r ∈ x, r.length = b

/-- Full shape of a 3-D tensor. -/
def HasShape3 (t : Tensor3) (a b c : ℕ) : Prop :=
  t.length = a ∧ ∀ mt ∈ t, mt.length = b ∧ ∀ hv ∈ mt, hv.length = c

/-- Two nested lists with the same outer length and pointwise equal row
lengths (the relation an encoder layer is assumed to respect between its
output and its input). -/
def SameShape2 {α β : Type} (x : List (List α)) (y : List (List β)) : Prop :=
  List.Forall₂ (fun r s => r.length = s.length) x y

instance {α : Type} (x : List (List α)) (a b : ℕ) : Decidable (HasShape2 x a b) := by
  unfold HasShape2; infer_instance

instance (t : Tensor3) (a b c : ℕ) : Decidable (HasShape3 t a b c) := by
  unfold HasShape3; infer_instance

theorem length_filterMap_getElem {α : Type} (x : List (List α)) (j n : ℕ)
    (hx : ∀ r ∈ x, r.length = n) (hj : j < n) :
    (x.filterMap (fun row => row[j]?)).length = x.length := by
  induction x with
  | nil => rfl
  | cons hd tl ih =>
    have h1 : j < hd.length := by rw [hx hd (by simp)]; exact hj
    rw [List.filterMap_cons, List.getElem?_eq_getElem h1]
    simp [ih (fun r h => hx r (by simp [h]))]

theorem transpose2_shape {α : Type} {x : List (List α)} {a b : ℕ}
    (hx : HasShape2 x a b) (ha : 0 < a) : HasShape2 (transpose2 x) b a := by
  obtain ⟨hlen, hrow⟩ := hx
  cases x with
  | nil => simp at hlen; omega
  | cons hd tl =>
    have hhd : hd.length = b := hrow hd (by simp)
    constructor
    · simp [transpose2, hhd]
    · intro r hr
      simp only [transpose2, List.headD_cons, List.mem_map, List.mem_range, hhd] at hr
      obtain ⟨j, hj, rfl⟩ := hr
      rw [← hlen]
      exact length_filterMap_getElem _ j b hrow hj

theorem hasShape2_of_sameShape2 {α β : Type} {x : List (List α)} {y : List (List β)}
    {a b : ℕ} (hxy : SameShape2 x y) (hy : HasShape2 y a b) : HasShape2 x a b := by
  obtain ⟨hlen, hrow⟩ := hy
  constructor
  · rw [hxy.length_eq, hlen]
  · intro r hr
    obtain ⟨⟨i, hi⟩, rfl⟩ := List.mem_iff_get.mp hr
    have h2 := (List.forall₂_iff_get.mp hxy).2 i hi (by rw [← hxy.length_eq]; exact hi)
    rw [h2]
    exact hrow _ (List.get_mem _ _ _)

theorem sameShape2_refl {α : Type} (x : List (List α)) : SameShape2 x x := by
  induction x with
  | nil => exact List.Forall₂.nil
  | cons hd tl ih => exact List.Forall₂.cons rfl ih

/-- Modelled from the spec: the external tokenizer (the alphabet's batch
converter) maps each sequence of a batch to a token row consisting of the
leading marker, the residue tokens, the trailing marker, and right padding up
to the longest sequence of the batch, so every row length is the maximum
residue length plus two. -/
def get_batch_converter (esm_model : ESMModel) (tok : Char → ℤ)
    (batch_seqs : List (List Char)) : List (List ℤ) :=
  let maxLen := (batch_seqs.map List.length).foldr max 0
  batch_seqs.map (fun s =>
    esm_model.cls_idx ::
      (s.map tok ++ [esm_model.eos_idx] ++
        List.replicate (maxLen - s.length) esm_model.padding_idx))

/-- One iteration body of the source's per-layer loop after the encoder-layer
forward: normalise the batch-major layer activations, subtract the layer's
pre-encoder bias, apply the layer's linear encoder plus encoder bias, and
apply the top-k activation, per (batch, token) position. -/
def clt_layer_latents (clt : CLT) (layer_idx k_value : ℕ) (layer_acts : Tensor3) : Tensor3 :=
  layer_acts.map (fun row => row.map (fun hv =>
    topK_activation
      (vadd (clt.encoders layer_idx (vsub (clt.LN hv) (clt.b_pre layer_idx)))
        (clt.b_enc layer_idx))
      k_value))

/-- The source's per-layer loop: iterate over the encoder's layers, breaking
once layer_idx reaches n_layers; at each remaining layer run the encoder layer
forward with the self-attention padding mask argument passed as none,
transpose back to batch-major layout, and append that layer's transcoder
latents. -/
def run_layers_go (clt : CLT) (k_value n_layers : ℕ) :
    List EncLayer → ℕ → Tensor3 → List Tensor3
  | [], _, _ => []
  | layer :: rest, layer_idx, x =>
    if n_layers ≤ layer_idx then []
    else
      let x' := layer x none
      let layer_acts := transpose2 x'
      let latents := clt_layer_latents clt layer_idx k_value layer_acts
      latents :: run_layers_go clt k_value n_layers rest (layer_idx + 1) x'

/-- Embedding of get_latents_for_batch: tokenize the batch, compute the
padding mask (which the rest of the function never uses, mirroring the
source), embed and transpose to time-major layout, run the per-layer loop,
and re-assemble one per-sequence array per input sequence by slicing token
indices start_idx to end_idx (1 to seq_len + 1) out of every layer's
batch-major latent tensor and stacking the layer slices. -/
def get_latents_for_batch (clt : CLT) (esm_model : ESMModel) (tok : Char → ℤ)
    (batch_seqs : List (List Char)) (k_value : ℕ) : List Tensor3 :=
  let n_layers := clt.num_layers
  let batch_size := batch_seqs.length
  let batch_tokens := get_batch_converter esm_model tok batch_seqs
  let _padding_mask := batch_tokens.map (fun row =>
    row.map (fun t => t != esm_model.padding_idx))
  let x0 : Tensor3 := batch_tokens.map (fun row =>
    row.map (fun t => scaleVec esm_model.embed_scale (esm_model.embed_tokens t)))
  let x1 := transpose2 x0
  let layers_data := run_layers_go clt k_value n_layers esm_model.layers 0 x1
  (List.range batch_size).map (fun b_idx =>
    let seq_len := (batch_seqs.getD b_idx []).length
    let start_idx := 1
    let end_idx := start_idx + seq_len
    layers_data.map (fun ld =>
      ((ld.getD b_idx []).drop start_idx).take (end_idx - start_idx)))

/-- The batching loop of main: the slice of batch_size sequences starting at
each index produced by the source's stride-batch_size range over the sequence
list; for a positive batch size the range has ceiling(N / batch_size)
indices. -/
def makeBatches {α : Type} (batch_size : ℕ) (seqs : List α) : List (List α) :=
  (List.range' 0 ((seqs.length + batch_size - 1) / batch_size) batch_size).map
    (fun i => (seqs.drop i).take batch_size)

/-- One row of the tabular dataset, with the fields main reads: the UniProt
entry id, the sequence, and the nullable InterPro membership string. -/
structure DataRow where
  entry : String
  sequence : List Char
  interPro : Option (List Char)
deriving DecidableEq

/-- Whether the pattern list occurs contiguously inside the haystack list
(the substring test behind the source's str.contains filter). -/
def leadsSeq : List Char → List Char → Bool
  | [], _ => true
  | _ :: _, [] => false
  | p :: ps, h :: hs => p == h && leadsSeq ps hs

def strContains : List Char → List Char → Bool
  | [], pat => pat.isEmpty
  | c :: tl, pat => leadsSeq pat (c :: tl) || strContains tl pat

/-- The source's has_id series: a row matches a target family when its
InterPro column contains the target id as a substring, with null entries
filled as false. -/
def has_interpro_id (target_id : List Char) (r : DataRow) : Bool :=
  (r.interPro.map (fun s => strContains s target_id)).getD false

/-- One written .npz archive: the ragged activation collection and the two
parallel metadata lists. -/
structure Archive where
  activations : List Tensor3
  entries : List String
  sequences : List (List Char)
deriving DecidableEq

/-- The per-group batching loop of main: extend the accumulated latent list
with the per-sequence results of every batch of eight sequences, in order. -/
def collect_group_latents (clt : CLT) (esm_model : ESMModel) (tok : Char → ℤ)
    (seqs : List (List Char)) (k_value : ℕ) : List Tensor3 :=
  ((makeBatches 8 seqs).map
    (fun batch => get_latents_for_batch clt esm_model tok batch k_value)).flatten

/-- The archive main saves for one group: the collected activations plus the
group's entry ids and raw sequences. -/
def save_group (clt : CLT) (esm_model : ESMModel) (tok : Char → ℤ)
    (entries : List String) (seqs : List (List Char)) (k_value : ℕ) : Archive :=
  { activations := collect_group_latents clt esm_model tok seqs k_value
    entries := entries
    sequences := seqs }

/-- The body of main's per-target loop: filter the dataset into the rows with
and without the target id; when no row matches, skip the target (continue)
producing nothing; otherwise sample min(group size, n_samples) rows from each
group with the seeded sampler and write the positives and negatives archives.
The seeded shuffling sampler is an external collaborator and is passed in as
sampleFn. -/
def process_target (clt : CLT) (esm_model : ESMModel) (tok : Char → ℤ)
    (sampleFn : List DataRow → ℕ → List DataRow) (df : List DataRow)
    (n_samples : ℕ) (target_id : List Char) : List (String × Archive) :=
  let group_in := df.filter (has_interpro_id target_id)
  let group_out := df.filter (fun r => ! has_interpro_id target_id r)
  if group_in.length = 0 then []
  else
    let n_in := min group_in.length n_samples
    let n_out := min group_out.length n_samples
    let df_in := sampleFn group_in n_in
    let df_out := sampleFn group_out n_out
    [("positives",
       save_group clt esm_model tok (df_in.map DataRow.entry)
         (df_in.map DataRow.sequence) clt.k),
     ("negatives",
       save_group clt esm_model tok (df_out.map DataRow.entry)
         (df_out.map DataRow.sequence) clt.k)]

/-- Main's loop over the target id list: the archives of every processed
target, tagged with the target id they were written for. -/
def process_targets (clt : CLT) (esm_model : ESMModel) (tok : Char → ℤ)
    (sampleFn : List DataRow → ℕ → List DataRow) (df : List DataRow)
    (n_samples : ℕ) (target_ids : List (List Char)) :
    List (List Char × String × Archive) :=
  target_ids.flatMap (fun t =>
    (process_target clt esm_model tok sampleFn df n_samples t).map
      (fun p => (t, p.1, p.2)))

theorem le_foldr_max (l : List ℕ) (a : ℕ) (h : a ∈ l) : a ≤ l.foldr max 0 := by
  induction l with
  | nil => simp at h
  | cons hd tl ih =>
    rcases List.mem_cons.mp h with rfl | h2
    · simp only [List.foldr_cons]
      exact le_max_left _ _
    · simp only [List.foldr_cons]
      exact le_trans (ih h2) (le_max_right _ _)

theorem get_batch_converter_shape (m : ESMModel) (tok : Char → ℤ)
    (seqs : List (List Char)) :
    HasShape2 (get_batch_converter m tok seqs) seqs.length
      ((seqs.map List.length).foldr max 0 + 2) := by
  constructor
  · simp [get_batch_converter]
  · intro r hr
    simp only [get_batch_converter, List.mem_map] at hr
    obtain ⟨s, hs, rfl⟩ := hr
    have hle : s.length ≤ (seqs.map List.length).foldr max 0 :=
      le_foldr_max _ _ (List.mem_map_of_mem _ hs)
    simp only [List.length_cons, List.length_append, List.length_map,
      List.length_replicate, List.length_nil]
    omega

theorem hasShape2_map_row {α β : Type} {x : List (List α)} {a b : ℕ} (f : α → β)
    (h : HasShape2 x a b) : HasShape2 (x.map (fun r => r.map f)) a b := by
  obtain ⟨h1, h2⟩ := h
  constructor
  · simp [h1]
  · intro r hr
    simp only [List.mem_map] at hr
    obtain ⟨s, hs, rfl⟩ := hr
    simp [h2 s hs]

theorem clt_layer_latents_shape (clt : CLT) (layer_idx k_value H : ℕ)
    (hE : ∀ i hv, (clt.encoders i hv).length = H)
    (hBe : ∀ i, (clt.b_enc i).length = H)
    {acts : Tensor3} {a b : ℕ} (h : HasShape2 acts a b) :
    HasShape3 (clt_layer_latents clt layer_idx k_value acts) a b H := by
  obtain ⟨h1, h2⟩ := h
  refine ⟨by simp [clt_layer_latents, h1], ?_⟩
  intro mt hmt
  simp only [clt_layer_latents, List.mem_map] at hmt
  obtain ⟨row, hrow, rfl⟩ := hmt
  refine ⟨by simp [h2 row hrow], ?_⟩
  intro hv hhv
  simp only [List.mem_map] at hhv
  obtain ⟨u, _, rfl⟩ := hhv
  rw [length_topK_activation]
  simp [vadd, List.length_zipWith, hE, hBe]

theorem run_layers_go_length (clt : CLT) (k_value n_layers : ℕ) :
    ∀ (ls : List EncLayer) (i : ℕ) (x : Tensor3),
      (run_layers_go clt k_value n_layers ls i x).length =
        min (n_layers - i) ls.length := by
  intro ls
  induction ls with
  | nil => intro i x; simp [run_layers_go]
  | cons f rest ih =>
    intro i x
    by_cases h : n_layers ≤ i
    · simp only [run_layers_go, if_pos h, List.length_nil, List.length_cons]
      omega
    · simp only [run_layers_go, if_neg h, List.length_cons, ih (i + 1)]
      omega

theorem run_layers_go_shape (clt : CLT) (k_value n_layers H T B : ℕ)
    (hE : ∀ i hv, (clt.encoders i hv).length = H)
    (hBe : ∀ i, (clt.b_enc i).length = H)
    (hT : 0 < T) :
    ∀ (ls : List EncLayer) (i : ℕ) (x : Tensor3),
      (∀ f ∈ ls, ∀ y, SameShape2 (f y none) y) → HasShape2 x T B →
      ∀ t ∈ run_layers_go clt k_value n_layers ls i x, HasShape3 t B T H := by
  intro ls
  induction ls with
  | nil => intro i x _ _ t ht; simp [run_layers_go] at ht
  | cons f rest ih =>
    intro i x hf hx t ht
    by_cases hn : n_layers ≤ i
    · simp [run_layers_go, if_pos hn] at ht
    · simp only [run_layers_go, if_neg hn, List.mem_cons] at ht
      have hx' : HasShape2 (f x none) T B :=
        hasShape2_of_sameShape2 (hf f (by simp) x) hx
      rcases ht with rfl | ht
      · exact clt_layer_latents_shape clt i k_value H hE hBe (transpose2_shape hx' hT)
      · exact ih (i + 1) (f x none) (fun g hg y => hf g (by simp [hg]) y) hx' t ht

theorem run_layers_go_mem_latents (clt : CLT) (k_value n_layers : ℕ) :
    ∀ (ls : List EncLayer) (i : ℕ) (x : Tensor3),
      ∀ t ∈ run_layers_go clt k_value n_layers ls i x,
        ∃ li acts, t = clt_layer_latents clt li k_value acts := by
  intro ls
  induction ls with
  | nil => intro i x t ht; simp [run_layers_go] at ht
  | cons f rest ih =>
    intro i x t ht
    by_cases hn : n_layers ≤ i
    · simp [run_layers_go, if_pos hn] at ht
    · simp only [run_layers_go, if_neg hn, List.mem_cons] at ht
      rcases ht with rfl | ht
      · exact ⟨i, transpose2 (f x none), rfl⟩
      · exact ih (i + 1) (f x none) t ht

theorem run_layers_go_agree (clt : CLT) (k_value n_layers : ℕ)
    {ls1 ls2 : List EncLayer}
    (h : List.Forall₂ (fun f g => ∀ y, f y none = g y none) ls1 ls2) :
    ∀ (i : ℕ) (x : Tensor3),
      run_layers_go clt k_value n_layers ls1 i x =
        run_layers_go clt k_value n_layers ls2 i x := by
  induction h with
  | nil => intro i x; rfl
  | @cons f g tl1 tl2 hfg htl ih =>
    intro i x
    by_cases hn : n_layers ≤ i
    · simp [run_layers_go, if_pos hn]
    · simp only [run_layers_go, if_neg hn]
      rw [hfg x, ih (i + 1)]

theorem get_latents_shape (clt : CLT) (m : ESMModel) (tok : Char → ℤ)
    (seqs : List (List Char)) (k_value H : ℕ)
    (hnl : clt.num_layers ≤ m.layers.length)
    (hlayer : ∀ f ∈ m.layers, ∀ y, SameShape2 (f y none) y)
    (hE : ∀ i hv, (clt.encoders i hv).length = H)
    (hBe : ∀ i, (clt.b_enc i).length = H) :
    List.Forall₂ (fun t s => HasShape3 t clt.num_layers s.length H)
      (get_latents_for_batch clt m tok seqs k_value) seqs := by
  by_cases hemp : seqs = []
  · subst hemp
    simp [get_latents_for_batch]
  · have hB : 0 < seqs.length := List.length_pos.mpr hemp
    have htok := get_batch_converter_shape m tok seqs
    have hx0 :
        HasShape2
          ((get_batch_converter m tok seqs).map (fun row =>
            row.map (fun t => scaleVec m.embed_scale (m.embed_tokens t))))
          seqs.length ((seqs.map List.length).foldr max 0 + 2) :=
      hasShape2_map_row _ htok
    have hx1 := transpose2_shape hx0 hB
    simp only [get_latents_for_batch]
    rw [List.forall₂_iff_get]
    constructor
    · simp
    · intro i h1 h2
      simp only [List.get_eq_getElem, List.getElem_map, List.getElem_range,
        List.length_map, List.length_range] at h1 ⊢
      have hL : (seqs.getD i []).length = seqs[i].length := by
        rw [List.getD_eq_getElem _ _ h2]
      set LD := run_layers_go clt k_value clt.num_layers m.layers 0
        (transpose2 ((get_batch_converter m tok seqs).map (fun row =>
          row.map (fun t => scaleVec m.embed_scale (m.embed_tokens t))))) with hLD
      have hld_len : LD.length = clt.num_layers := by
        rw [hLD, run_layers_go_length]
        simp
        omega
      have hld_shape : ∀ t ∈ LD,
          HasShape3 t seqs.length ((seqs.map List.length).foldr max 0 + 2) H := by
        intro t ht
        exact run_layers_go_shape clt k_value clt.num_layers H
          ((seqs.map List.length).foldr max 0 + 2) seqs.length hE hBe (by omega)
          m.layers 0 _ hlayer hx1 t ht
      refine ⟨by simpa using hld_len, ?_⟩
      intro mt hmt
      simp only [List.mem_map] at hmt
      obtain ⟨ld, hld, rfl⟩ := hmt
      obtain ⟨hld1, hld2⟩ := hld_shape ld hld
      have hi_lt : i < ld.length := by omega
      have hrow_mem : ld.getD i [] ∈ ld := by
        rw [List.getD_eq_getElem _ _ hi_lt]
        exact List.getElem_mem _
      obtain ⟨hrow_len, hrow_vecs⟩ := hld2 _ hrow_mem
      have hLmax : seqs[i].length ≤ (seqs.map List.length).foldr max 0 :=
        le_foldr_max _ _ (List.mem_map_of_mem _ (List.getElem_mem _))
      constructor
      · simp only [List.length_take, List.length_drop, hrow_len, hL]
        omega
      · intro hv hhv
        exact hrow_vecs hv (List.mem_of_mem_drop (List.mem_of_mem_take hhv))

theorem slices_shift {α : Type} (B : ℕ) :
    ∀ (cnt s : ℕ) (seqs : List α),
      (List.range' s cnt B).map (fun i => (seqs.drop i).take B) =
        (List.range' 0 cnt B).map (fun i => ((seqs.drop s).drop i).take B) := by
  intro cnt
  induction cnt with
  | zero => intro s seqs; rfl
  | succ cnt ih =>
    intro s seqs
    rw [List.range'_succ, List.range'_succ]
    simp only [List.map_cons, List.drop_zero, Nat.zero_add]
    rw [ih (s + B) seqs, ih B (seqs.drop s)]
    simp only [List.drop_drop]

theorem makeBatches_flatten_aux {α : Type} (B : ℕ) (hB : 0 < B) :
    ∀ (cnt : ℕ) (seqs : List α), (seqs.length + B - 1) / B = cnt →
      (makeBatches B seqs).flatten = seqs := by
  intro cnt
  induction cnt with
  | zero =>
    intro seqs hcnt
    have hlen : seqs.length = 0 := by
      by_contra h
      have h1 : 1 ≤ (seqs.length + B - 1) / B :=
        (Nat.le_div_iff_mul_le hB).mpr (by omega)
      omega
    rw [List.length_eq_zero] at hlen
    subst hlen
    simp [makeBatches]
  | succ cnt ih =>
    intro seqs hcnt
    unfold makeBatches
    rw [hcnt, List.range'_succ]
    simp only [List.map_cons, List.flatten_cons, List.drop_zero, Nat.zero_add]
    rw [slices_shift]
    have hcount : ((seqs.drop B).length + B - 1) / B = cnt := by
      rw [List.length_drop]
      rcases le_or_lt seqs.length B with h | h
      · have h1 : (seqs.length + B - 1) / B < 2 :=
          (Nat.div_lt_iff_lt_mul hB).mpr (by omega)
        have h2 : (seqs.length - B + B - 1) / B = 0 := Nat.div_eq_of_lt (by omega)
        omega
      · have h1 : seqs.length - B + B - 1 + B = seqs.length + B - 1 := by omega
        have h2 : (seqs.length - B + B - 1 + B) / B = (seqs.length - B + B - 1) / B + 1 :=
          Nat.add_div_right _ hB
        rw [h1] at h2
        omega
    have hrec := ih (seqs.drop B) hcount
    unfold makeBatches at hrec
    rw [hcount] at hrec
    rw [hrec]
    exact List.take_append_drop B seqs

theorem makeBatches_flatten {α : Type} (B : ℕ) (hB : 0 < B) (seqs : List α) :
    (makeBatches B seqs).flatten = seqs :=
  makeBatches_flatten_aux B hB _ seqs rfl

theorem makeBatches_length {α : Type} (B : ℕ) (seqs : List α) :
    (makeBatches B seqs).length = (seqs.length + B - 1) / B := by
  simp [makeBatches]

theorem clt_layer_latents_vec_topK (clt : CLT) (layer_idx k_value : ℕ)
    (acts : Tensor3) :
    ∀ row ∈ clt_layer_latents clt layer_idx k_value acts, ∀ hv ∈ row,
      ∃ u, hv = topK_activation u k_value := by
  intro row hrow hv hhv
  simp only [clt_layer_latents, List.mem_map] at hrow
  obtain ⟨r, _, rfl⟩ := hrow
  simp only [List.mem_map] at hhv
  obtain ⟨u, _, rfl⟩ := hhv
  exact ⟨_, rfl⟩

/-- A concrete two-layer encoder with identity layers, used to run the
pipeline on small concrete batches. -/
def demoESM : ESMModel :=
  { padding_idx := 0
    cls_idx := 1
    eos_idx := 2
    embed_scale := 1
    embed_tokens := fun t => [t]
    layers := [fun x _ => x, fun x _ => x] }

/-- A concrete two-layer transcoder with hidden dimension 3 and sparsity 2,
used to run the pipeline on small concrete batches. -/
def demoCLT : CLT :=
  { num_layers := 2
    k := 2
    LN := fun v => v
    b_pre := fun _ => [0]
    encoders := fun _ v => [v.headD 0, 2, 1]
    b_enc := fun _ => [0, 0, 0] }

/-- A concrete tokenizer mapping each residue character to its code point. -/
def demoTok : Char → ℤ := fun c => (c.toNat : ℤ)

/-- A variant of the demo encoder whose layers behave differently when an
attention mask is actually present, but identically when the mask argument
is none. -/
def demoESMMasked : ESMModel :=
  { demoESM with
    layers := [fun x mask => match mask with | none => x | some _ => [],
               fun x _ => x] }

/-- A concrete two-row dataset: one row matching family X, one matching
family Y. -/
def demoDF : List DataRow :=
  [{ entry := "E1", sequence := ['A', 'B'], interPro := some ['X'] },
   { entry := "E2", sequence := ['C'], interPro := some ['Y'] }]

/-- A concrete one-row dataset whose only row matches family X, so the
non-member group is empty. -/
def demoDFOnlyX : List DataRow :=
  [{ entry := "E1", sequence := ['A'], interPro := some ['X'] }]

theorem demoESM_layers_shape : ∀ f ∈ demoESM.layers, ∀ y, SameShape2 (f y none) y := by
  intro f hf y
  have hf' : f ∈ [fun (x : Tensor3) (_ : Option AttnMask) => x,
                  fun (x : Tensor3) (_ : Option AttnMask) => x] := hf
  rcases List.mem_cons.mp hf' with rfl | h2
  · exact sameShape2_refl y
  · rcases List.mem_cons.mp h2 with rfl | h3
    · exact sameShape2_refl y
    · simp at h3

theorem demoCLT_encoders_length : ∀ (i : ℕ) (hv : Vec), (demoCLT.encoders i hv).length = 3 :=
  fun _ _ => rfl

theorem demoCLT_b_enc_length : ∀ i : ℕ, (demoCLT.b_enc i).length = 3 :=
  fun _ => rfl

/-- C4: given an ordered list of sequences and a positive batch size B, the
batcher produces ceiling(N / B) contiguous, non-overlapping batches that
preserve input order - concatenating them in order recovers the input list
and no shuffling occurs - every batch is nonempty with at most B elements,
and every batch except possibly the last has exactly B elements. -/
theorem batcher_contract {α : Type} (B : ℕ) (hB : 0 < B) (seqs : List α) :
    (makeBatches B seqs).length = (seqs.length + B - 1) / B ∧
    (makeBatches B seqs).flatten = seqs ∧
    (∀ c ∈ makeBatches B seqs, 0 < c.length ∧ c.length ≤ B) ∧
    ∀ j, j + 1 < (makeBatches B seqs).length →
      ((makeBatches B seqs).getD j []).length = B := by
  refine ⟨makeBatches_length B seqs, makeBatches_flatten B hB seqs, ?_, ?_⟩
  · intro c hc
    simp only [makeBatches, List.mem_map, List.mem_range'] at hc
    obtain ⟨i, ⟨jj, hjj, rfl⟩, rfl⟩ := hc
    have h1 : (jj + 1) * B ≤ seqs.length + B - 1 := (Nat.le_div_iff_mul_le hB).mp hjj
    have h1' : jj * B + B ≤ seqs.length + B - 1 := by rw [Nat.succ_mul] at h1; exact h1
    have hmul : B * jj = jj * B := Nat.mul_comm B jj
    simp only [List.length_take, List.length_drop, Nat.zero_add]
    omega
  · intro j hj
    rw [makeBatches_length] at hj
    have hj2 : j < (makeBatches B seqs).length := by rw [makeBatches_length]; omega
    rw [List.getD_eq_getElem _ _ hj2]
    simp only [makeBatches, List.getElem_map, List.getElem_range']
    have hq : j + 2 ≤ (seqs.length + B - 1) / B := by omega
    have h1 : (j + 2) * B ≤ seqs.length + B - 1 := (Nat.le_div_iff_mul_le hB).mp hq
    have h1' : j * B + 2 * B ≤ seqs.length + B - 1 := by rw [Nat.add_mul] at h1; omega
    have hmul : B * j = j * B := Nat.mul_comm B j
    simp only [List.length_take, List.length_drop, Nat.zero_add]
    omega

/-- Witness: the batcher contract evaluated at batch size 2 on a
three-element list, the spec's scenario of two batches of sizes 2 and 1. -/
theorem batcher_contract_witness :
    (makeBatches 2 [10, 20, 30]).length = (([10, 20, 30] : List ℕ).length + 2 - 1) / 2 ∧
    (makeBatches 2 [10, 20, 30]).flatten = [10, 20, 30] ∧
    (∀ c ∈ makeBatches 2 [10, 20, 30], 0 < c.length ∧ c.length ≤ 2) ∧
    ∀ j, j + 1 < (makeBatches 2 [10, 20, 30]).length →
      ((makeBatches 2 [10, 20, 30]).getD j []).length = 2 :=
  batcher_contract 2 (by decide) [10, 20, 30]

/-- C6: the per-batch loop iterates over the encoder's layers and breaks once
layer_idx reaches n_layers, so the list of extracted per-layer latent tensors
has length min(n_layers, encoder layer count); requesting more layers than
the encoder has simply stops at the encoder's maximum, with no error and no
out-of-range access (the loop is a total function of the layer list). -/
theorem layer_loop_truncates (clt : CLT) (m : ESMModel) (k_value : ℕ) (x : Tensor3) :
    (run_layers_go clt k_value clt.num_layers m.layers 0 x).length =
      min clt.num_layers m.layers.length := by
  rw [run_layers_go_length]
  simp

/-- C3: every hidden vector of every reassembled per-sequence latent array is
a top-k activation output, so it has at most k nonzero entries, for every
layer, batch element and token position. -/
theorem latents_sparsity (clt : CLT) (m : ESMModel) (tok : Char → ℤ)
    (seqs : List (List Char)) (k_value : ℕ) :
    ∀ t ∈ get_latents_for_batch clt m tok seqs k_value, ∀ mt ∈ t, ∀ hv ∈ mt,
      numNonzero hv ≤ k_value := by
  intro t ht mt hmt hv hhv
  simp only [get_latents_for_batch, List.mem_map, List.mem_range] at ht
  obtain ⟨b, hb, rfl⟩ := ht
  simp only [List.mem_map] at hmt
  obtain ⟨ld, hld, rfl⟩ := hmt
  have hv_mem : hv ∈ ld.getD b [] :=
    List.mem_of_mem_drop (List.mem_of_mem_take hhv)
  by_cases hblen : b < ld.length
  · have hrow_mem : ld.getD b [] ∈ ld := by
      rw [List.getD_eq_getElem _ _ hblen]
      exact List.getElem_mem _
    obtain ⟨li, acts, rfl⟩ :=
      run_layers_go_mem_latents clt k_value clt.num_layers m.layers 0 _ ld hld
    obtain ⟨u, rfl⟩ :=
      clt_layer_latents_vec_topK clt li k_value acts _ hrow_mem hv hv_mem
    exact numNonzero_topK_activation_le u k_value
  · rw [List.getD_eq_default _ _ (le_of_not_lt hblen)] at hv_mem
    simp at hv_mem

/-- Witness: the sparsity bound evaluated on a vector taken from a concrete
run of the pipeline with k = 2. -/
theorem latents_sparsity_witness : numNonzero [(65 : ℤ), 2, 0] ≤ 2 :=
  latents_sparsity demoCLT demoESM demoTok [['A']] 2
    [[[(65 : ℤ), 2, 0]], [[(65 : ℤ), 2, 0]]] (by decide)
    [[(65 : ℤ), 2, 0]] (by decide) [(65 : ℤ), 2, 0] (by decide)

/-- C8: every encoder layer forward pass in the per-layer loop is run with
the self-attention padding mask argument passed as none, even though a
padding mask is computed from the token tensor: the extractor's output is
invariant under arbitrary changes to how the layers respond to present
(some) mask arguments, as long as their behaviour at none agrees; the
encoder therefore attends over the full padded sequence at every layer. -/
theorem padding_mask_not_applied (clt : CLT) (m m' : ESMModel) (tok : Char → ℤ)
    (seqs : List (List Char)) (k_value : ℕ)
    (hpad : m'.padding_idx = m.padding_idx) (hcls : m'.cls_idx = m.cls_idx)
    (heos : m'.eos_idx = m.eos_idx) (hscale : m'.embed_scale = m.embed_scale)
    (hembed : m'.embed_tokens = m.embed_tokens)
    (hlay : List.Forall₂ (fun f g => ∀ y, f y none = g y none) m'.layers m.layers) :
    get_latents_for_batch clt m' tok seqs k_value =
      get_latents_for_batch clt m tok seqs k_value := by
  simp only [get_latents_for_batch, get_batch_converter, hpad, hcls, heos, hscale, hembed]
  simp only [run_layers_go_agree clt k_value clt.num_layers hlay]

/-- Witness: the mask-invariance applied to the demo encoder and a variant
whose layers return garbage whenever a mask is actually supplied. -/
theorem padding_mask_not_applied_witness :
    get_latents_for_batch demoCLT demoESMMasked demoTok [['A'], ['B', 'C']] 2 =
      get_latents_for_batch demoCLT demoESM demoTok [['A'], ['B', 'C']] 2 :=
  padding_mask_not_applied demoCLT demoESM demoESMMasked demoTok [['A'], ['B', 'C']] 2
    rfl rfl rfl rfl rfl
    (List.Forall₂.cons (fun _ => rfl) (List.Forall₂.cons (fun _ => rfl) List.Forall₂.nil))

/-- C1: for the sequence at index b of a processed batch, with residue length
L, the reassembled per-sequence latent array has shape
(n_layers, L, hidden_dim) - obtained by slicing token indices 1 to L+1 out of
each layer's batch-major tensor (skipping the leading marker at index 0 and
excluding the trailing marker at index L+1) and stacking the n_layers slices
along a new leading axis - provided the encoder has at least n_layers layers,
its layers preserve the (token, batch) shape, and the transcoder's per-layer
linear encoder and encoder bias produce hidden_dim entries. -/
theorem reassembled_per_sequence_shape (clt : CLT) (m : ESMModel) (tok : Char → ℤ)
    (seqs : List (List Char)) (k_value H b : ℕ)
    (hb : b < seqs.length)
    (hnl : clt.num_layers ≤ m.layers.length)
    (hlayer : ∀ f ∈ m.layers, ∀ y, SameShape2 (f y none) y)
    (hE : ∀ i hv, (clt.encoders i hv).length = H)
    (hBe : ∀ i, (clt.b_enc i).length = H) :
    HasShape3 ((get_latents_for_batch clt m tok seqs k_value).getD b [])
      clt.num_layers (seqs.getD b []).length H := by
  have h := get_latents_shape clt m tok seqs k_value H hnl hlayer hE hBe
  have hlen := h.length_eq
  have h2 := (List.forall₂_iff_get.mp h).2 b (by omega) hb
  simp only [List.get_eq_getElem] at h2
  rw [List.getD_eq_getElem _ _
      (show b < (get_latents_for_batch clt m tok seqs k_value).length by omega),
    List.getD_eq_getElem _ _ hb]
  exact h2

/-- Witness: the per-sequence shape theorem on a concrete batch of residue
lengths 2 and 1, two layers and hidden dimension 3, at batch index 0. -/
theorem reassembled_per_sequence_shape_witness :
    HasShape3 ((get_latents_for_batch demoCLT demoESM demoTok [['A', 'B'], ['C']] 2).getD 0 [])
      demoCLT.num_layers (([['A', 'B'], ['C']] : List (List Char)).getD 0 []).length 3 :=
  reassembled_per_sequence_shape demoCLT demoESM demoTok [['A', 'B'], ['C']] 2 3 0
    (by decide) (by decide) demoESM_layers_shape demoCLT_encoders_length demoCLT_b_enc_length

/-- C5: the extractor-plus-reassembler returns exactly one per-sequence array
per input sequence - the output list has the length of the input batch - and
in the same order: position b of the output is sized by the residue length of
input sequence b (every layer slice in it has that many token rows). -/
theorem one_output_per_input (clt : CLT) (m : ESMModel) (tok : Char → ℤ)
    (seqs : List (List Char)) (k_value H : ℕ)
    (hnl : clt.num_layers ≤ m.layers.length)
    (hlayer : ∀ f ∈ m.layers, ∀ y, SameShape2 (f y none) y)
    (hE : ∀ i hv, (clt.encoders i hv).length = H)
    (hBe : ∀ i, (clt.b_enc i).length = H) :
    (get_latents_for_batch clt m tok seqs k_value).length = seqs.length ∧
    List.Forall₂ (fun t s => ∀ mt ∈ t, mt.length = s.length)
      (get_latents_for_batch clt m tok seqs k_value) seqs := by
  refine ⟨by simp [get_latents_for_batch], ?_⟩
  exact List.Forall₂.imp (fun t s h mt hmt => (h.2 mt hmt).1)
    (get_latents_shape clt m tok seqs k_value H hnl hlayer hE hBe)

/-- Witness: one output array per input sequence on a concrete batch of two
sequences. -/
theorem one_output_per_input_witness :
    (get_latents_for_batch demoCLT demoESM demoTok [['A', 'B'], ['C']] 2).length =
        ([['A', 'B'], ['C']] : List (List Char)).length ∧
    List.Forall₂ (fun t s => ∀ mt ∈ t, mt.length = s.length)
      (get_latents_for_batch demoCLT demoESM demoTok [['A', 'B'], ['C']] 2)
      [['A', 'B'], ['C']] :=
  one_output_per_input demoCLT demoESM demoTok [['A', 'B'], ['C']] 2 3
    (by decide) demoESM_layers_shape demoCLT_encoders_length demoCLT_b_enc_length

theorem collect_group_forall₂ (clt : CLT) (m : ESMModel) (tok : Char → ℤ)
    (seqs : List (List Char)) (k_value H : ℕ)
    (hnl : clt.num_layers ≤ m.layers.length)
    (hlayer : ∀ f ∈ m.layers, ∀ y, SameShape2 (f y none) y)
    (hE : ∀ i hv, (clt.encoders i hv).length = H)
    (hBe : ∀ i, (clt.b_enc i).length = H) :
    List.Forall₂ (fun t s => HasShape3 t clt.num_layers s.length H)
      (collect_group_latents clt m tok seqs k_value) seqs := by
  unfold collect_group_latents
  have hflat : (makeBatches 8 seqs).flatten = seqs :=
    makeBatches_flatten 8 (by norm_num) seqs
  have h2 : List.Forall₂
      (List.Forall₂ (fun t s => HasShape3 t clt.num_layers s.length H))
      ((makeBatches 8 seqs).map (fun batch => get_latents_for_batch clt m tok batch k_value))
      (makeBatches 8 seqs) := by
    rw [List.forall₂_map_left_iff, List.forall₂_same]
    intro b _
    exact get_latents_shape clt m tok b k_value H hnl hlayer hE hBe
  have h3 := List.rel_flatten h2
  rwa [hflat] at h3

theorem save_group_parallel (clt : CLT) (m : ESMModel) (tok : Char → ℤ)
    (rows : List DataRow) (k_value H : ℕ)
    (hnl : clt.num_layers ≤ m.layers.length)
    (hlayer : ∀ f ∈ m.layers, ∀ y, SameShape2 (f y none) y)
    (hE : ∀ i hv, (clt.encoders i hv).length = H)
    (hBe : ∀ i, (clt.b_enc i).length = H) :
    (save_group clt m tok (rows.map DataRow.entry) (rows.map DataRow.sequence)
        k_value).activations.length =
      (save_group clt m tok (rows.map DataRow.entry) (rows.map DataRow.sequence)
        k_value).entries.length ∧
    (save_group clt m tok (rows.map DataRow.entry) (rows.map DataRow.sequence)
        k_value).activations.length =
      (save_group clt m tok (rows.map DataRow.entry) (rows.map DataRow.sequence)
        k_value).sequences.length ∧
    List.Forall₂ (fun t s => ∀ mt ∈ t, mt.length = s.length)
      (save_group clt m tok (rows.map DataRow.entry) (rows.map DataRow.sequence)
        k_value).activations
      (save_group clt m tok (rows.map DataRow.entry) (rows.map DataRow.sequence)
        k_value).sequences := by
  have hF := collect_group_forall₂ clt m tok (rows.map DataRow.sequence) k_value H
    hnl hlayer hE hBe
  have hlen2 := hF.length_eq
  refine ⟨?_, ?_, ?_⟩
  · simp only [save_group]
    rw [hlen2]
    simp
  · simp only [save_group]
    exact hlen2
  · simp only [save_group]
    exact List.Forall₂.imp (fun t s h mt hmt => (h.2 mt hmt).1) hF

/-- C2: every archive written for a (target family, group) pair has parallel
fields, indexed in the same sampling order: activations, entries and
sequences have equal lengths, and the i-th activation array's middle (token)
axis has the length of the i-th sequence. -/
theorem archive_fields_parallel (clt : CLT) (m : ESMModel) (tok : Char → ℤ)
    (sampleFn : List DataRow → ℕ → List DataRow) (df : List DataRow)
    (n_samples : ℕ) (target_id : List Char) (H : ℕ)
    (hnl : clt.num_layers ≤ m.layers.length)
    (hlayer : ∀ f ∈ m.layers, ∀ y, SameShape2 (f y none) y)
    (hE : ∀ i hv, (clt.encoders i hv).length = H)
    (hBe : ∀ i, (clt.b_enc i).length = H) :
    ∀ p ∈ process_target clt m tok sampleFn df n_samples target_id,
      p.2.activations.length = p.2.entries.length ∧
      p.2.activations.length = p.2.sequences.length ∧
      List.Forall₂ (fun t s => ∀ mt ∈ t, mt.length = s.length)
        p.2.activations p.2.sequences := by
  intro p hp
  unfold process_target at hp
  by_cases hz : (df.filter (has_interpro_id target_id)).length = 0
  · rw [if_pos hz] at hp
    simp at hp
  · rw [if_neg hz] at hp
    simp only [List.mem_cons, List.not_mem_nil, or_false] at hp
    rcases hp with rfl | rfl
    · exact save_group_parallel clt m tok _ clt.k H hnl hlayer hE hBe
    · exact save_group_parallel clt m tok _ clt.k H hnl hlayer hE hBe

/-- Witness: the archive invariant on the positives archive of a concrete
two-row dataset and target family X. -/
theorem archive_fields_parallel_witness :
    ((process_target demoCLT demoESM demoTok (fun g n => g.take n) demoDF 50
          ['X']).getD 0 ("", ⟨[], [], []⟩)).2.activations.length =
      ((process_target demoCLT demoESM demoTok (fun g n => g.take n) demoDF 50
          ['X']).getD 0 ("", ⟨[], [], []⟩)).2.entries.length ∧
    ((process_target demoCLT demoESM demoTok (fun g n => g.take n) demoDF 50
          ['X']).getD 0 ("", ⟨[], [], []⟩)).2.activations.length =
      ((process_target demoCLT demoESM demoTok (fun g n => g.take n) demoDF 50
          ['X']).getD 0 ("", ⟨[], [], []⟩)).2.sequences.length ∧
    List.Forall₂ (fun t s => ∀ mt ∈ t, mt.length = s.length)
      ((process_target demoCLT demoESM demoTok (fun g n => g.take n) demoDF 50
          ['X']).getD 0 ("", ⟨[], [], []⟩)).2.activations
      ((process_target demoCLT demoESM demoTok (fun g n => g.take n) demoDF 50
          ['X']).getD 0 ("", ⟨[], [], []⟩)).2.sequences :=
  archive_fields_parallel demoCLT demoESM demoTok (fun g n => g.take n) demoDF 50
    ['X'] 3 (by decide) demoESM_layers_shape demoCLT_encoders_length demoCLT_b_enc_length
    _ (by decide)

/-- C7: a target family with zero matching rows in the dataset produces no
archive at all, and the loop over targets proceeds to the remaining targets
unchanged: removing the zero-match target from the target list leaves the
pipeline's output identical. -/
theorem zero_match_target_skipped (clt : CLT) (m : ESMModel) (tok : Char → ℤ)
    (sampleFn : List DataRow → ℕ → List DataRow) (df : List DataRow)
    (n_samples : ℕ) (target_id : List Char) (ts1 ts2 : List (List Char))
    (hz : df.filter (has_interpro_id target_id) = []) :
    process_target clt m tok sampleFn df n_samples target_id = [] ∧
    process_targets clt m tok sampleFn df n_samples (ts1 ++ target_id :: ts2) =
      process_targets clt m tok sampleFn df n_samples (ts1 ++ ts2) := by
  have h1 : process_target clt m tok sampleFn df n_samples target_id = [] := by
    unfold process_target
    rw [hz]
    simp
  refine ⟨h1, ?_⟩
  unfold process_targets
  rw [List.flatMap_append, List.flatMap_cons, h1, List.flatMap_append]
  simp

/-- Witness: target Z matches no row of the demo dataset, so it yields no
archive and dropping it from the target list changes nothing. -/
theorem zero_match_target_skipped_witness :
    process_target demoCLT demoESM demoTok (fun g n => g.take n) demoDF 50 ['Z'] = [] ∧
    process_targets demoCLT demoESM demoTok (fun g n => g.take n) demoDF 50
        ([['X']] ++ ['Z'] :: []) =
      process_targets demoCLT demoESM demoTok (fun g n => g.take n) demoDF 50
        ([['X']] ++ []) :=
  zero_match_target_skipped demoCLT demoESM demoTok (fun g n => g.take n) demoDF 50
    ['Z'] [['X']] [] (by decide)

/-- C9: for a target family with at least one matching row, the number of
sequences sampled and archived for each of the two groups equals
min(number of rows in that group, n_samples): when a group has fewer rows
than requested, all of its rows are sampled rather than an error raised. -/
theorem sampled_counts (clt : CLT) (m : ESMModel) (tok : Char → ℤ)
    (sampleFn : List DataRow → ℕ → List DataRow) (df : List DataRow)
    (n_samples : ℕ) (target_id : List Char)
    (hsample : ∀ g n, n ≤ g.length → (sampleFn g n).length = n)
    (hpos : df.filter (has_interpro_id target_id) ≠ []) :
    (process_target clt m tok sampleFn df n_samples target_id).map
        (fun p => (p.1, p.2.entries.length, p.2.sequences.length)) =
      [("positives", min (df.filter (has_interpro_id target_id)).length n_samples,
          min (df.filter (has_interpro_id target_id)).length n_samples),
       ("negatives",
          min (df.filter (fun r => ! has_interpro_id target_id r)).length n_samples,
          min (df.filter (fun r => ! has_interpro_id target_id r)).length n_samples)] := by
  have hz : ¬ (df.filter (has_interpro_id target_id)).length = 0 := by
    simpa [List.length_eq_zero] using hpos
  unfold process_target
  rw [if_neg hz]
  simp only [List.map_cons, List.map_nil, save_group, List.length_map]
  rw [hsample _ _ (min_le_left _ _), hsample _ _ (min_le_left _ _)]

/-- Witness: the sampled counts for target X on the demo dataset, one
matching and one non-matching row, with n_samples well above both. -/
theorem sampled_counts_witness :
    (process_target demoCLT demoESM demoTok (fun g n => g.take n) demoDF 50 ['X']).map
        (fun p => (p.1, p.2.entries.length, p.2.sequences.length)) =
      [("positives", min (demoDF.filter (has_interpro_id ['X'])).length 50,
          min (demoDF.filter (has_interpro_id ['X'])).length 50),
       ("negatives",
          min (demoDF.filter (fun r => ! has_interpro_id ['X'] r)).length 50,
          min (demoDF.filter (fun r => ! has_interpro_id ['X'] r)).length 50)] :=
  sampled_counts demoCLT demoESM demoTok (fun g n => g.take n) demoDF 50 ['X']
    (fun g n h => by rw [List.length_take]; omega) (by decide)

/-- C10: the zero-match skip tests only the positives group: whenever at
least one row matches the target, both a positives and a negatives archive
are produced, in that order; and when the negatives group is empty, a
negatives archive with zero-length activations, entries and sequences is
still written. -/
theorem negatives_archive_always_written (clt : CLT) (m : ESMModel) (tok : Char → ℤ)
    (sampleFn : List DataRow → ℕ → List DataRow) (df : List DataRow)
    (n_samples : ℕ) (target_id : List Char)
    (hsample : ∀ g n, n ≤ g.length → (sampleFn g n).length = n)
    (hpos : df.filter (has_interpro_id target_id) ≠ []) :
    (process_target clt m tok sampleFn df n_samples target_id).map Prod.fst =
        ["positives", "negatives"] ∧
    (df.filter (fun r => ! has_interpro_id target_id r) = [] →
      (process_target clt m tok sampleFn df n_samples target_id).getD 1
          ("", ⟨[], [], []⟩) =
        ("negatives", ⟨[], [], []⟩)) := by
  have hz : ¬ (df.filter (has_interpro_id target_id)).length = 0 := by
    simpa [List.length_eq_zero] using hpos
  constructor
  · unfold process_target
    rw [if_neg hz]
    simp
  · intro hneg
    unfold process_target
    rw [if_neg hz, hneg]
    have h0 : sampleFn [] 0 = [] := by
      have h := hsample [] 0 (by simp)
      rwa [List.length_eq_zero] at h
    simp only [List.length_nil, Nat.zero_min]
    rw [h0]
    simp [save_group, collect_group_latents, makeBatches]

/-- Witness: on a dataset whose only row matches target X, a negatives
archive with empty fields is still produced alongside the positives one. -/
theorem negatives_archive_always_written_witness :
    (process_target demoCLT demoESM demoTok (fun g n => g.take n) demoDFOnlyX 50
          ['X']).map Prod.fst = ["positives", "negatives"] ∧
    (demoDFOnlyX.filter (fun r => ! has_interpro_id ['X'] r) = [] →
      (process_target demoCLT demoESM demoTok (fun g n => g.take n) demoDFOnlyX 50
          ['X']).getD 1 ("", ⟨[], [], []⟩) =
        ("negatives", ⟨[], [], []⟩)) :=
  negatives_archive_always_written demoCLT demoESM demoTok (fun g n => g.take n)
    demoDFOnlyX 50 ['X'] (fun g n h => by rw [List.length_take]; omega) (by decide)

end ActivationCollector
